import Mathlib

/-!
Verification of the `diamond` stacked-branch tool against its specification.

The development shallowly embeds the program's state and operations:

* `src/database.rs` — the sqlite-backed branch store (`Database`): the
  `branches` table is a list of rows in insertion (rowid) order, the
  `repo_info` table is the optional `remote` field, and each sqlite
  transaction is a `Except`-valued function (an error means the transaction
  is dropped, i.e. rolled back, so the caller keeps the previous state —
  `applyTx` spells this out).  The recursive CTE of
  `get_branches_in_stack` is embedded as the saturation of the undirected
  parent/child adjacency from the seed branch (the CTE's two recursive
  arms add exactly the children and the parents of already-reached rows),
  followed by the final `WHERE name <> parent AND parent IS NOT NULL`
  filter, `DISTINCT`, and `ORDER BY level ASC`, where every reached row's
  sort key is (up to one constant shift) its signed depth relative to the
  seed branch.
* `src/git.rs` — the VCS adapter: external commands are oracles (exit
  status of a completed process, or a spawn failure), and the pure
  classification the Rust code performs on them is embedded directly
  (`check_status`, `is_ancestor_of`, `Remote.parse` with its regex turned
  into an executable leftmost-first matcher, the `BranchGuard`).
* `src/main.rs` — the orchestrator commands (`restack`, `sync`, `submit`,
  `track`) as functions producing the list of VCS operations they issue
  (their cascading pull/rebase/push calls) together with their result.
-/

deriving instance DecidableEq for Except

/-- A row of the sqlite `branches` table: `name TEXT PRIMARY KEY, parent TEXT`
(the `submitted` column added by the third migration is never read by any of
the modelled operations and is omitted). `parent` is `none` exactly for the
root branch row. -/
structure Row where
  name : String
  parent : Option String
deriving DecidableEq, Repr

/-- The result type of `get_branches_in_stack`, mirroring `struct Branch`
in `database.rs` (both fields non-null there). -/
structure Branch where
  name : String
  parent : String
deriving DecidableEq, Repr

/-- The persistent store of `database.rs`: the `branches` table in rowid
(insertion) order and the singleton `repo_info` row's `remote` column. -/
structure Database where
  branches : List Row
  remote : Option String
deriving DecidableEq, Repr

/-- Errors surfaced by the store operations; the Rust code raises these as
`anyhow` errors (or sqlite primary-key violations), each of which aborts and
rolls back the surrounding transaction. -/
inductive DbError
  | multipleRoots
  | rootHasChildren
  | untrackedParent
  | primaryKeyViolation
deriving DecidableEq, Repr

/-- `INSERT INTO branches ...`: the `name` column is the primary key, so
inserting a row whose name is already present fails (and the surrounding
transaction rolls back). A successful insert appends at the end (rowid
order). -/
def insertRow (branches : List Row) (row : Row) : Except DbError (List Row) :=
  if (branches.filter (fun r => r.name = row.name)).length > 0 then
    .error .primaryKeyViolation
  else
    .ok (branches ++ [row])

/-- Transaction semantics: a failed operation's transaction is dropped
without commit, so the database keeps its previous state. -/
def applyTx (db : Database) (result : Except DbError Database) : Database :=
  match result with
  | .ok db' => db'
  | .error _ => db

/-- `Database::set_remote`: `INSERT OR REPLACE INTO repo_info (id, remote) VALUES (1, ?)`. -/
def Database.set_remote (db : Database) (remote : String) : Database :=
  { db with remote := some remote }

/-- `Database::get_remote`: `SELECT remote FROM repo_info WHERE id = 1`. -/
def Database.get_remote (db : Database) : Option String :=
  db.remote

/-- `SELECT name FROM branches WHERE parent IS NULL` in table-scan order. -/
def Database.root_branches (db : Database) : List String :=
  (db.branches.filter (fun row => row.parent = none)).map (fun row => row.name)

/-- `Database::get_root_branch`: `query_row` returns the first matching row,
if any. -/
def Database.get_root_branch (db : Database) : Option String :=
  db.root_branches.head?

/-- `Database::get_parent`: `SELECT parent FROM branches WHERE name = ?`
(first matching row; the name column is the primary key). -/
def Database.get_parent (db : Database) (branch : String) : Option (Option String) :=
  (db.branches.find? (fun row => row.name = branch)).map (fun row => row.parent)

/-- `Database::set_root_branch`, one transaction: collect the null-parent
rows, `ensure!` there are fewer than two, `pop()` the last one (if any); if
an existing root is found, fail when it has children, otherwise delete its
row; finally insert the new root row. Any failure rolls the transaction
back. -/
def Database.set_root_branch (db : Database) (root_branch : String) : Except DbError Database :=
  let root_branches := db.root_branches
  if root_branches.length ≥ 2 then
    .error .multipleRoots
  else
    match root_branches.getLast? with
    | some existing_root_branch =>
      let num_children :=
        (db.branches.filter (fun row => row.parent = some existing_root_branch)).length
      if num_children > 0 then
        .error .rootHasChildren
      else
        match insertRow (db.branches.filter (fun row => row.name ≠ existing_root_branch))
            { name := root_branch, parent := none } with
        | .ok branches => .ok { db with branches := branches }
        | .error e => .error e
    | none =>
      match insertRow db.branches { name := root_branch, parent := none } with
      | .ok branches => .ok { db with branches := branches }
      | .error e => .error e

/-- `Database::create_branch`, one transaction: `ensure!` the parent
(`current_branch`) is tracked, then insert `(new_branch, current_branch)`. -/
def Database.create_branch (db : Database) (current_branch new_branch : String) :
    Except DbError Database :=
  let current_branch_exists :=
    (db.branches.filter (fun row => row.name = current_branch)).length > 0
  if current_branch_exists then
    match insertRow db.branches { name := new_branch, parent := some current_branch } with
    | .ok branches => .ok { db with branches := branches }
    | .error e => .error e
  else
    .error .untrackedParent

/-! ### Schema migrations (`Database::migrate`) -/

/-- The `MIGRATIONS` array of `database.rs`: three schema steps, identified
by their list position (`enumerate()`), which is the revision recorded in
the `migration` table. -/
def MIGRATIONS : List String :=
  [ "CREATE TABLE IF NOT EXISTS repo_info ( id INT PRIMARY KEY, remote TEXT )"
  , "CREATE TABLE IF NOT EXISTS branches ( name TEXT PRIMARY KEY, parent TEXT )"
  , "ALTER TABLE branches ADD submitted BOOL DEFAULT FALSE NOT NULL"
  ]

/-- The schema-evolution state: the sequence of migration steps that have
actually been executed (in execution order), and the
`migration.current_revision` singleton row (absent on a fresh database). -/
structure MigrationState where
  schema : List Nat
  current_revision : Option Nat
deriving DecidableEq, Repr

/-- One iteration of the loop in `Database::migrate`: read
`current_revision`; skip the step if `current_revision >= revision`;
otherwise execute the step and record its revision, in one transaction. -/
def migrateStep (db : MigrationState) (revision : Nat) : MigrationState :=
  match db.current_revision with
  | some current_revision =>
    if current_revision ≥ revision then db
    else { schema := db.schema ++ [revision], current_revision := some revision }
  | none => { schema := db.schema ++ [revision], current_revision := some revision }

/-- `Database::migrate`: iterate `MIGRATIONS.iter().enumerate()`, i.e. fold
`migrateStep` over the revisions `0, 1, 2`. -/
def migrate (db : MigrationState) : MigrationState :=
  (List.range MIGRATIONS.length).foldl migrateStep db

/-- C6: applying the migration sequence twice in a row yields the same
schema and the same recorded revision as applying it once; on every run,
each migration step whose ordinal is at most the last recorded applied
ordinal is skipped (so the steps executed in a run are exactly the ordinals
strictly above the recorded revision, in ascending order — no step is ever
re-applied or applied out of order). -/
theorem migrate_idempotent (db : MigrationState) :
    migrate (migrate db) = migrate db ∧
    (migrate db).schema = db.schema ++
      ((List.range MIGRATIONS.length).filter (fun revision =>
        match db.current_revision with
        | some current_revision => decide (current_revision < revision)
        | none => true)) := by
  obtain ⟨schema, cr⟩ := db
  match cr with
  | none =>
    simp [migrate, MIGRATIONS, migrateStep, List.range_succ]
  | some 0 =>
    simp [migrate, MIGRATIONS, migrateStep, List.range_succ]
  | some 1 =>
    simp [migrate, MIGRATIONS, migrateStep, List.range_succ]
  | some (n + 2) =>
    simp [migrate, MIGRATIONS, migrateStep, List.range_succ]

/-! ### VCS command adapter (`git.rs`) -/

/-- A completed external command's `ExitStatus`: `code` is `none` when the
process was killed by a signal. `success()` holds exactly for exit code 0. -/
structure ExitStat where
  code : Option Int
deriving DecidableEq, Repr

/-- `ExitStatus::success()`. -/
def ExitStat.success (status : ExitStat) : Bool :=
  status.code = some 0

/-- Errors of the adapter and orchestrator layer. -/
inductive CmdErr
  | spawnFailed
  | commandFailed (status : ExitStat)
  | malformedRemoteUrl
  | guardAlreadyReleased
  | noRemote
  | noRoot
  | pullFailed (branch : String)
  | rebaseFailed (parent_branch branch : String)
  | pushFailed (branch : String)
  | parseFailed
  | notAncestor (parent branch : String)
  | dbError (e : DbError)
deriving DecidableEq, Repr

/-- `check_status`: non-zero (or signal-killed) exit becomes an error. -/
def check_status (status : ExitStat) : Except CmdErr Unit :=
  if status.success then .ok () else .error (.commandFailed status)

/-- `is_ancestor_of`: runs `git merge-base --is-ancestor`; the input is the
spawn outcome (`none` when spawning the subprocess itself failed, which is
the only `?`-propagated error in the Rust function). A completed command is
classified as `Ok(status.success())` — `check_status` is never called. -/
def is_ancestor_of (spawn_result : Option ExitStat) : Except CmdErr Bool :=
  match spawn_result with
  | none => .error .spawnFailed
  | some status => .ok status.success

/-- The working copy, as far as the modelled commands observe it: the
currently checked-out branch. -/
structure GitState where
  current : String
deriving DecidableEq, Repr

/-- `checkout` (success path): `git checkout <branch>` switches the working
copy to `branch`. -/
def checkout (_s : GitState) (branch : String) : GitState :=
  { current := branch }

/-- `get_current_branch` (success path): `git rev-parse --symbolic-full-name
HEAD` stripped of `refs/heads/`. -/
def get_current_branch (s : GitState) : String :=
  s.current

/-- `struct BranchGuard` of `git.rs` (the `git_root` path field is constant
and omitted). -/
structure BranchGuard where
  original_branch : Option String
deriving DecidableEq, Repr

/-- `using_branch`: checks out the target `branch` FIRST, then reads the
current branch into `_original_branch` — which the Rust code then discards
(note the leading underscore): the guard is constructed with
`original_branch: Some(branch.to_owned())`, i.e. it records the TARGET
branch, not the branch that was current before entry. -/
def using_branch (s : GitState) (branch : String) : GitState × BranchGuard :=
  let s1 := checkout s branch
  let _original_branch := get_current_branch s1
  (s1, { original_branch := some branch })

/-- `BranchGuard::release_impl`: `take()` the recorded branch (failing if it
was already taken) and check it out. -/
def BranchGuard.release_impl (guard : BranchGuard) (s : GitState) :
    Except CmdErr (GitState × BranchGuard) :=
  match guard.original_branch with
  | none => .error .guardAlreadyReleased
  | some original_branch => .ok (checkout s original_branch, { original_branch := none })

/-- `BranchGuard::release` simply forwards to `release_impl`. -/
def BranchGuard.release (guard : BranchGuard) (s : GitState) :
    Except CmdErr (GitState × BranchGuard) :=
  guard.release_impl s

/-- `impl Drop for BranchGuard`: if the recorded branch has not been taken
yet, check it out (the drop path of every scope exit, including failure). -/
def BranchGuard.dropGuard (guard : BranchGuard) (s : GitState) : GitState :=
  match guard.original_branch with
  | none => s
  | some original_branch => checkout s original_branch

/-- C1 (code bug exhibit): enter the guard from a working copy on `main`
with target `feature`, then exit by explicit release and, alternatively, by
the drop path. On both exit paths the working copy ends on `feature` — the
TARGET branch — because `using_branch` records the target instead of the
pre-entry current branch (it even reads the current branch only AFTER the
checkout, and then discards it), so the pre-entry branch `main` is not
restored on any exit path. -/
theorem using_branch_restores_target_not_original :
    (using_branch { current := ("main") } ("feature")).2.release
        (using_branch { current := ("main") } ("feature")).1 =
      .ok ({ current := ("feature") }, { original_branch := none }) ∧
    (using_branch { current := ("main") } ("feature")).2.dropGuard
        (using_branch { current := ("main") } ("feature")).1 =
      { current := ("feature") } ∧
    ("feature") ≠ ("main") := by
  refine ⟨rfl, rfl, by decide⟩

/-- C10: `is_ancestor_of` never returns an error for a completed external
command — every completed status, zero or not (e.g. exit code 1 for a
false ancestry answer or 128 for a nonexistent branch name), is reported as
the boolean `status.success()`; only a spawn failure yields an error. -/
theorem is_ancestor_of_never_errs_on_completed (status : ExitStat) :
    is_ancestor_of (some status) = .ok status.success ∧
    (status.code ≠ some 0 → is_ancestor_of (some status) = .ok false) ∧
    is_ancestor_of none = .error .spawnFailed := by
  refine ⟨rfl, ?_, rfl⟩
  intro h
  simp only [is_ancestor_of, ExitStat.success]
  congr 1
  simpa using h

/-- Witness for C10 at exit status 128 (e.g. `git merge-base` invoked with a
nonexistent branch name): the completed command is reported as `Ok false`,
not as an error. -/
theorem is_ancestor_of_never_errs_on_completed_witness :
    is_ancestor_of (some { code := some 128 }) = .ok false :=
  (is_ancestor_of_never_errs_on_completed { code := some 128 }).2.1 (by decide)

/-! ### Remote URL parsing (`Remote::parse`)

The Rust code matches the unanchored regex

  `(git@github.com:|https://github.com/)(?P<organization>[^/]+)/(?P<repo>[^/.]+)(\.git)?`

against the URL (leftmost match; at a given position the first alternative
is preferred; the quantifiers are greedy, and since `[^/]+` must be followed
by a literal `/` and the final group is optional, the greedy maximal runs
are exactly what the regex engine captures). Note the hosts are literally
`github.com` (with the unescaped dot matching any single character) — no
other host matches either alternative. -/

/-- One element of a literal regex pattern: a literal character or the
unescaped `.` wildcard. -/
inductive Pat
  | lit (c : Char)
  | anyChar
deriving DecidableEq, Repr

/-- The first alternative, `git@github.com:` (the dot is a wildcard). -/
def patSsh : List Pat :=
  [.lit 'g', .lit 'i', .lit 't', .lit '@', .lit 'g', .lit 'i', .lit 't', .lit 'h',
   .lit 'u', .lit 'b', .anyChar, .lit 'c', .lit 'o', .lit 'm', .lit ':']

/-- The second alternative, `https://github.com/` (the dot is a wildcard). -/
def patHttps : List Pat :=
  [.lit 'h', .lit 't', .lit 't', .lit 'p', .lit 's', .lit ':', .lit '/', .lit '/',
   .lit 'g', .lit 'i', .lit 't', .lit 'h', .lit 'u', .lit 'b', .anyChar, .lit 'c',
   .lit 'o', .lit 'm', .lit '/']

/-- Match a literal pattern as a prefix of the character list, returning the
remainder on success. -/
def matchPats : List Pat → List Char → Option (List Char)
  | [], cs => some cs
  | _ :: _, [] => none
  | p :: ps, c :: cs =>
    match p with
    | .lit l => if c = l then matchPats ps cs else none
    | .anyChar => matchPats ps cs

/-- `[^/]` — a character allowed in the `organization` capture. -/
def isOrgChar (c : Char) : Bool :=
  c ≠ '/'

/-- `[^/.]` — a character allowed in the `repo` capture. -/
def isRepoChar (c : Char) : Bool :=
  c ≠ '/' && c ≠ '.'

/-- Try one alternative at the current position: after the literal host
part, capture `[^/]+` (greedy: the maximal run, whose successor — if any —
must then be the required `/`), then `[^/.]+` (greedy; the trailing
`(\.git)?` is optional and so never affects the captures). -/
def captureAt (pat : List Pat) (cs : List Char) : Option (List Char × List Char) :=
  match matchPats pat cs with
  | none => none
  | some rest =>
    let org := rest.takeWhile isOrgChar
    if org.isEmpty then none
    else
      match rest.dropWhile isOrgChar with
      | '/' :: rest2 =>
        let repo := rest2.takeWhile isRepoChar
        if repo.isEmpty then none else some (org, repo)
      | _ => none

/-- Try both alternatives at the current position, first one preferred. -/
def tryAt (cs : List Char) : Option (List Char × List Char) :=
  match captureAt patSsh cs with
  | some r => some r
  | none => captureAt patHttps cs

/-- Unanchored scan: the leftmost position with a match wins. -/
def findMatch : List Char → Option (List Char × List Char)
  | [] => none
  | c :: cs =>
    match tryAt (c :: cs) with
    | some r => some r
    | none => findMatch cs

/-- `str::trim` over explicit character lists (drop whitespace from both
ends). -/
def trimChars (cs : List Char) : List Char :=
  ((cs.dropWhile Char.isWhitespace).reverse.dropWhile Char.isWhitespace).reverse

/-- `struct Remote` of `git.rs`. -/
structure Remote where
  organization : String
  repo : String
deriving DecidableEq, Repr

/-- `Remote::parse`: run the regex over the URL; no match is a
`Malformed remote URL` error, otherwise the two captures are trimmed and
returned. -/
def Remote.parse (remote_url : String) : Except CmdErr Remote :=
  match findMatch remote_url.data with
  | none => .error .malformedRemoteUrl
  | some (org, repo) =>
    .ok { organization := String.mk (trimChars org), repo := String.mk (trimChars repo) }

/-- `Remote::new_pr_url`. -/
def Remote.new_pr_url (remote : Remote) (base_branch branch_to_merge : String) : String :=
  "https://github.com/" ++ remote.organization ++ "/" ++ remote.repo ++
    "/compare/" ++ base_branch ++ "..." ++ branch_to_merge ++ "?expand=1"

/-! ### The stack query (`Database::get_branches_in_stack`)

The recursive CTE seeds `stack_branches` with `(current, current, 0)` and
repeatedly adds, for every reached row, the table rows whose `parent` equals
its `name` (children, `level + 1`) and the table rows whose `name` equals
its `parent` (parents, `level - 1`), until saturation. The set of reached
row NAMES is therefore exactly the undirected closure of the seed name
under the parent/child adjacency, which `stackClosure` computes by
iterating one saturation step more often than the closure can keep growing.

The final `SELECT DISTINCT name, parent ... WHERE name <> parent AND parent
IS NOT NULL ORDER BY level ASC` keeps the non-root reached rows (the seed
tuple is removed by `name <> parent`) and sorts them by `level`. Because
`level` changes by exactly ±1 along each derivation edge and the tree depth
is a potential for that graph, every derivation of the row of a branch `x`
carries `level = depth x - depth current` up to one uniform constant shift
(introduced by the self-referential seed tuple), so `ORDER BY level ASC`
orders the distinct rows by the signed relative depth
`depth x - depth current`, ties unspecified. -/

/-- The undirected neighbours of `name` contributed by one CTE step: the
names of its child rows (`branches.parent = name`) and the parents of the
rows named `name` (`name = branches.name`). -/
def stackNeighbors (branches : List Row) (name : String) : List String :=
  ((branches.filter (fun row => row.parent = some name)).map (fun row => row.name)) ++
    ((branches.filter (fun row => row.name = name)).filterMap (fun row => row.parent))

/-- One saturation step of the CTE, on reached names. -/
def stackGrow (branches : List Row) (seen : List String) : List String :=
  (seen ++ seen.flatMap (stackNeighbors branches)).dedup

/-- The saturated set of reached names: every name the CTE's fixpoint
reaches is connected to the seed by an undirected path, whose length is at
most twice the table size, so `2 * length + 1` steps saturate. -/
def stackClosure (branches : List Row) (start : String) : List String :=
  (stackGrow branches)^[2 * branches.length + 1] [start]

/-- The depth of a branch: the length of its parent chain up to the
null-parent row, following the primary key (`find?` of the unique row with
that name). Fuel-bounded; `none` for untracked names or when the chain does
not terminate within the fuel. -/
def branchDepth (branches : List Row) : Nat → String → Option Nat
  | 0, _ => none
  | fuel + 1, name =>
    match branches.find? (fun row => row.name = name) with
    | none => none
    | some row =>
      match row.parent with
      | none => some 0
      | some parent => (branchDepth branches fuel parent).map (· + 1)

/-- The `level` sort key of the CTE output row of branch `name`, relative to
the seed `current_branch`: the signed relative depth. -/
def stackLevel (branches : List Row) (current_branch name : String) : Int :=
  (((branchDepth branches branches.length name).getD 0 : Nat) : Int) -
    (((branchDepth branches branches.length current_branch).getD 0 : Nat) : Int)

/-- `Database::get_branches_in_stack`: project the reached table rows
through `WHERE name <> parent AND parent IS NOT NULL`, take the `DISTINCT`
`(name, parent)` pairs, and sort them ascending by `level`. -/
def Database.get_branches_in_stack (db : Database) (current_branch : String) : List Branch :=
  List.insertionSort
    (fun b1 b2 =>
      stackLevel db.branches current_branch b1.name ≤ stackLevel db.branches current_branch b2.name)
    ((db.branches.filterMap (fun row =>
      match row.parent with
      | none => none
      | some parent =>
        if row.name ≠ parent ∧ row.name ∈ stackClosure db.branches current_branch then
          some { name := row.name, parent := parent }
        else none)).dedup)

/-! ### The orchestrator (`main.rs`)

Each command is embedded as a function from the store state, the current
branch and oracles for the outcomes of the external VCS commands, to the
sequence of cascading VCS operations it issues (its pulls, rebases and
pushes, in order — the operations the claims are about; the surrounding
`BranchGuard` is modelled separately above) together with its result. -/

/-- A cascading VCS operation issued by an orchestrator command. -/
inductive Op
  | pull (remote branch : String)
  | rebase (parent_branch branch : String)
  | push (remote branch : String)
deriving DecidableEq, Repr

/-- The body of `sync`'s for-loop over the stack members: per member, `pull`
then `rebase` onto its parent; the first failing command propagates via `?`
and ends the loop. -/
def syncLoop (remote : String) (pullOk : String → Bool) (rebaseOk : String → String → Bool) :
    List Branch → List Op × Except CmdErr Unit
  | [] => ([], .ok ())
  | branch :: rest =>
    if pullOk branch.name then
      if rebaseOk branch.parent branch.name then
        let r := syncLoop remote pullOk rebaseOk rest
        (Op.pull remote branch.name :: Op.rebase branch.parent branch.name :: r.1, r.2)
      else
        ([Op.pull remote branch.name, Op.rebase branch.parent branch.name],
          .error (.rebaseFailed branch.parent branch.name))
    else
      ([Op.pull remote branch.name], .error (.pullFailed branch.name))

/-- `sync` (`main.rs`): require a configured remote and root branch (bailing
without issuing any cascading operation otherwise), pull the root branch,
then run the per-member pull+rebase loop over
`get_branches_in_stack(current_branch)`. -/
def sync (db : Database) (current_branch : String) (pullOk : String → Bool)
    (rebaseOk : String → String → Bool) : List Op × Except CmdErr Unit :=
  match db.get_remote with
  | none => ([], .error .noRemote)
  | some remote =>
    match db.get_root_branch with
    | none => ([], .error .noRoot)
    | some root_branch =>
      if pullOk root_branch then
        let r := syncLoop remote pullOk rebaseOk (db.get_branches_in_stack current_branch)
        (Op.pull remote root_branch :: r.1, r.2)
      else
        ([Op.pull remote root_branch], .error (.pullFailed root_branch))

/-- The body of `restack`'s for-loop: rebase each stack member onto its
parent; the first failure propagates via `?` and ends the loop. -/
def restackLoop (rebaseOk : String → String → Bool) :
    List Branch → List Op × Except CmdErr Unit
  | [] => ([], .ok ())
  | branch :: rest =>
    if rebaseOk branch.parent branch.name then
      let r := restackLoop rebaseOk rest
      (Op.rebase branch.parent branch.name :: r.1, r.2)
    else
      ([Op.rebase branch.parent branch.name],
        .error (.rebaseFailed branch.parent branch.name))

/-- `restack` (`main.rs`): rebase every member of
`get_branches_in_stack(current_branch)`, in order, halting at the first
failure. -/
def restack (db : Database) (current_branch : String)
    (rebaseOk : String → String → Bool) : List Op × Except CmdErr Unit :=
  restackLoop rebaseOk (db.get_branches_in_stack current_branch)

/-- The body of `submit`'s for-loop: push each stack member to the literal
remote `"origin"` (`git::push_branch(&repo_root, "origin", &branch.name)`),
then emit the review-link URL built from the parsed remote identity; a push
failure propagates via `?` and ends the loop. -/
def submitLoop (remote : Remote) (pushOk : String → Bool) :
    List Branch → List Op × List String × Except CmdErr Unit
  | [] => ([], [], .ok ())
  | branch :: rest =>
    if pushOk branch.name then
      let r := submitLoop remote pushOk rest
      (Op.push "origin" branch.name :: r.1,
        remote.new_pr_url branch.parent branch.name :: r.2.1, r.2.2)
    else
      ([Op.push "origin" branch.name], [], .error (.pushFailed branch.name))

/-- `submit` (`main.rs`): a missing remote prints a message and returns
`Ok(())` without doing anything; otherwise the configured remote NAME is
resolved to its URL (`git remote get-url`, modelled by the oracle `urlOf`)
and parsed, and each stack member is pushed — to `"origin"` — followed by
its review link. Returns the issued operations, the emitted links, and the
result. -/
def submit (db : Database) (current_branch : String) (urlOf : String → String)
    (pushOk : String → Bool) : List Op × List String × Except CmdErr Unit :=
  match db.get_remote with
  | none => ([], [], .ok ())
  | some remote_name =>
    match Remote.parse (urlOf remote_name) with
    | .error _ => ([], [], .error .parseFailed)
    | .ok remote => submitLoop remote pushOk (db.get_branches_in_stack current_branch)

/-- `track` (`main.rs`): require a configured root branch FIRST (bailing
otherwise, before the explicit parent argument is even examined); resolve
the parent to the explicit argument or the root branch; require the
ancestry check to pass; then record the branch in the store. -/
def track (db : Database) (current_branch : String) (parent_opt : Option String)
    (is_ancestor : String → String → Bool) : Except CmdErr Database :=
  match db.get_root_branch with
  | none => .error .noRoot
  | some root_branch =>
    let parent :=
      match parent_opt with
      | some parent => parent
      | none => root_branch
    if is_ancestor parent current_branch then
      match db.create_branch parent current_branch with
      | .ok db' => .ok db'
      | .error e => .error (.dbError e)
    else
      .error (.notAncestor parent current_branch)

/-! ### Claim theorems for the orchestrator commands -/

/-- C9: `track` fails with the configuration error for a missing root branch
whenever none is configured, even when an explicit parent argument is
supplied (the root-branch lookup is checked before the parent argument is
examined, so the supplied parent — which would make the root value unused —
does not avoid the failure), and the store is unchanged. -/
theorem track_requires_root_even_with_parent (db : Database) (current_branch : String)
    (parent_arg : String) (is_ancestor : String → String → Bool)
    (hroot : db.get_root_branch = none) :
    track db current_branch (some parent_arg) is_ancestor = .error .noRoot := by
  simp [track, hroot]

/-- Witness for C9: an uninitialized store (no branches at all) with an
explicit parent argument. -/
theorem track_requires_root_even_with_parent_witness :
    track { branches := [], remote := some "origin" } "feature" (some "main")
        (fun _ _ => true) = .error .noRoot :=
  track_requires_root_even_with_parent { branches := [], remote := some "origin" }
    "feature" "main" (fun _ _ => true) (by decide)

/-- The linear stack `main <- a <- b <- c` of the end-to-end scenario. -/
def dbStack : Database :=
  { branches := [ { name := "main", parent := none }
                , { name := "a", parent := some "main" }
                , { name := "b", parent := some "a" }
                , { name := "c", parent := some "b" } ]
  , remote := some "origin" }

/-- The stack order for `dbStack` as computed by the embedded query. -/
theorem dbStack_stack_order :
    dbStack.get_branches_in_stack "c" =
      [ { name := "a", parent := "main" }, { name := "b", parent := "a" },
        { name := "c", parent := "b" } ] := by
  decide

/-- C4: on the stack `main <- a <- b <- c`, `restack` issues rebases
strictly in ascending order (`a` onto `main`, then `b` onto `a`, then `c`
onto `b`); and when the rebase of `b` onto `a` fails, the trace stops right
after that rebase — the rebase of `c` onto `b` is never attempted — and the
reported error names the failing rebase of `b`. -/
theorem restack_ascending_halts_at_failure (rebaseOk : String → String → Bool) :
    (rebaseOk "main" "a" = true → rebaseOk "a" "b" = true → rebaseOk "b" "c" = true →
      restack dbStack "c" rebaseOk =
        ([Op.rebase "main" "a", Op.rebase "a" "b", Op.rebase "b" "c"], .ok ())) ∧
    (rebaseOk "main" "a" = true → rebaseOk "a" "b" = false →
      restack dbStack "c" rebaseOk =
        ([Op.rebase "main" "a", Op.rebase "a" "b"], .error (.rebaseFailed "a" "b"))) := by
  constructor
  · intro h1 h2 h3
    simp [restack, dbStack_stack_order, restackLoop, h1, h2, h3]
  · intro h1 h2
    simp [restack, dbStack_stack_order, restackLoop, h1, h2]

/-- Witness for C4: an all-succeeding oracle produces the three rebases in
ascending order, and an oracle failing exactly `b` onto `a` halts the
cascade after that rebase. -/
theorem restack_ascending_halts_at_failure_witness :
    restack dbStack "c" (fun _ _ => true) =
      ([Op.rebase "main" "a", Op.rebase "a" "b", Op.rebase "b" "c"], .ok ()) ∧
    restack dbStack "c" (fun p b => !(p == "a" && b == "b")) =
      ([Op.rebase "main" "a", Op.rebase "a" "b"], .error (.rebaseFailed "a" "b")) :=
  ⟨(restack_ascending_halts_at_failure (fun _ _ => true)).1 rfl rfl rfl,
   (restack_ascending_halts_at_failure (fun p b => !(p == "a" && b == "b"))).2 rfl rfl⟩

/-- Unfolding lemma: a prefix of stack members whose pulls and rebases all
succeed contributes its pull+rebase pairs to the trace and the loop
continues on the remainder. -/
theorem syncLoop_append_ok (remote : String) (pullOk : String → Bool)
    (rebaseOk : String → String → Bool) (s₁ rest : List Branch)
    (h : ∀ b ∈ s₁, pullOk b.name = true ∧ rebaseOk b.parent b.name = true) :
    syncLoop remote pullOk rebaseOk (s₁ ++ rest) =
      (s₁.flatMap (fun b => [Op.pull remote b.name, Op.rebase b.parent b.name]) ++
        (syncLoop remote pullOk rebaseOk rest).1,
       (syncLoop remote pullOk rebaseOk rest).2) := by
  induction s₁ with
  | nil => simp
  | cons b s ih =>
    obtain ⟨hp, hr⟩ := h b (List.mem_cons_self b s)
    have ih' := ih (fun x hx => h x (List.mem_cons_of_mem b hx))
    simp [syncLoop, hp, hr, ih']

/-- C3: `sync` fails without issuing any cascading VCS operation when no
remote or no root branch is configured; otherwise it pulls the root branch
first and then, for each stack member in ascending order, performs a pull
followed by a rebase onto that member's parent; the first pull or rebase
failure halts the cascade, so no later member is processed (the trace ends
at the failing operation and no operation of any later member appears). -/
theorem sync_characterization (db : Database) (current_branch : String)
    (pullOk : String → Bool) (rebaseOk : String → String → Bool) :
    (db.get_remote = none →
      sync db current_branch pullOk rebaseOk = ([], .error .noRemote)) ∧
    (db.get_remote ≠ none → db.get_root_branch = none →
      sync db current_branch pullOk rebaseOk = ([], .error .noRoot)) ∧
    (∀ remote root_branch, db.get_remote = some remote →
      db.get_root_branch = some root_branch →
      (pullOk root_branch = false →
        sync db current_branch pullOk rebaseOk =
          ([Op.pull remote root_branch], .error (.pullFailed root_branch))) ∧
      (pullOk root_branch = true →
        (∀ b ∈ db.get_branches_in_stack current_branch,
            pullOk b.name = true ∧ rebaseOk b.parent b.name = true) →
        sync db current_branch pullOk rebaseOk =
          (Op.pull remote root_branch ::
            (db.get_branches_in_stack current_branch).flatMap
              (fun b => [Op.pull remote b.name, Op.rebase b.parent b.name]),
            .ok ())) ∧
      (pullOk root_branch = true →
        ∀ s₁ br s₂, db.get_branches_in_stack current_branch = s₁ ++ br :: s₂ →
          (∀ b ∈ s₁, pullOk b.name = true ∧ rebaseOk b.parent b.name = true) →
          (pullOk br.name = false →
            sync db current_branch pullOk rebaseOk =
              (Op.pull remote root_branch ::
                s₁.flatMap (fun b => [Op.pull remote b.name, Op.rebase b.parent b.name]) ++
                  [Op.pull remote br.name],
                .error (.pullFailed br.name))) ∧
          (pullOk br.name = true → rebaseOk br.parent br.name = false →
            sync db current_branch pullOk rebaseOk =
              (Op.pull remote root_branch ::
                s₁.flatMap (fun b => [Op.pull remote b.name, Op.rebase b.parent b.name]) ++
                  [Op.pull remote br.name, Op.rebase br.parent br.name],
                .error (.rebaseFailed br.parent br.name))))) := by
  refine ⟨?_, ?_, ?_⟩
  · intro hrem
    simp [sync, Database.get_remote] at hrem ⊢
    simp [hrem]
  · intro hrem hroot
    match hr : db.get_remote with
    | none => exact absurd hr hrem
    | some remote => simp [sync, Database.get_remote] at hr ⊢; simp [hr, hroot]
  · intro remote root_branch hrem hroot
    refine ⟨?_, ?_, ?_⟩
    · intro hpull
      simp [sync, Database.get_remote] at hrem ⊢
      simp [hrem, hroot, hpull]
    · intro hpull hall
      have hloop := syncLoop_append_ok remote pullOk rebaseOk
        (db.get_branches_in_stack current_branch) [] hall
      simp only [List.append_nil] at hloop
      simp [sync, Database.get_remote] at hrem ⊢
      simp [hrem, hroot, hpull, hloop, syncLoop]
    · intro hpull s₁ br s₂ hsplit hpre
      have hloop := syncLoop_append_ok remote pullOk rebaseOk s₁ (br :: s₂) hpre
      constructor
      · intro hbr
        simp [sync, Database.get_remote] at hrem ⊢
        simp [hrem, hroot, hpull, hsplit, hloop, syncLoop, hbr]
      · intro hbr hreb
        simp [sync, Database.get_remote] at hrem ⊢
        simp [hrem, hroot, hpull, hsplit, hloop, syncLoop, hbr, hreb]

/-- Witness for C3, exercising each clause of the characterization on
concrete stores and oracles: a store without a remote, a store without a
root branch, the full stack with everything succeeding, and the same stack
with the pull of `b` failing (the cascade stops before `c`). -/
theorem sync_characterization_witness :
    sync { branches := [], remote := none } "c" (fun _ => true) (fun _ _ => true) =
      ([], .error .noRemote) ∧
    sync { branches := [], remote := some "origin" } "c" (fun _ => true) (fun _ _ => true) =
      ([], .error .noRoot) ∧
    sync dbStack "c" (fun _ => true) (fun _ _ => true) =
      ([Op.pull "origin" "main",
        Op.pull "origin" "a", Op.rebase "main" "a",
        Op.pull "origin" "b", Op.rebase "a" "b",
        Op.pull "origin" "c", Op.rebase "b" "c"], .ok ()) ∧
    sync dbStack "c" (fun b => !(b == "b")) (fun _ _ => true) =
      ([Op.pull "origin" "main",
        Op.pull "origin" "a", Op.rebase "main" "a",
        Op.pull "origin" "b"], .error (.pullFailed "b")) := by
  refine ⟨?_, ?_, ?_, ?_⟩
  · exact (sync_characterization { branches := [], remote := none } "c"
      (fun _ => true) (fun _ _ => true)).1 rfl
  · exact (sync_characterization { branches := [], remote := some "origin" } "c"
      (fun _ => true) (fun _ _ => true)).2.1 (by decide) rfl
  · have h := ((sync_characterization dbStack "c"
      (fun _ => true) (fun _ _ => true)).2.2 "origin" "main" rfl rfl).2.1 rfl
      (by intro b _; exact ⟨rfl, rfl⟩)
    rw [h, dbStack_stack_order]
    rfl
  · have h := (((sync_characterization dbStack "c"
      (fun b => !(b == "b")) (fun _ _ => true)).2.2 "origin" "main" rfl rfl).2.2 rfl
      [{ name := "a", parent := "main" }] { name := "b", parent := "a" }
      [{ name := "c", parent := "b" }] (by rw [dbStack_stack_order]; rfl)
      (by decide)).1 (by decide)
    rw [h]
    rfl


/-- Every operation issued by `submit`'s loop is a push to `"origin"`. -/
theorem submitLoop_pushes_origin (remote : Remote) (pushOk : String → Bool)
    (stack : List Branch) :
    ∀ op ∈ (submitLoop remote pushOk stack).1, ∃ b, op = Op.push "origin" b := by
  induction stack with
  | nil => simp [submitLoop]
  | cons br rest ih =>
    intro op hop
    by_cases hp : pushOk br.name
    · simp [submitLoop, hp] at hop
      rcases hop with h | h
      · exact ⟨br.name, h⟩
      · exact ih op h
    · simp [submitLoop, hp] at hop
      exact ⟨br.name, hop⟩

/-- When every push succeeds, `submit`'s loop issues exactly one
origin-push per stack member, in stack order. -/
theorem submitLoop_all_ok_ops (remote : Remote) (pushOk : String → Bool)
    (stack : List Branch) (hall : ∀ b ∈ stack, pushOk b.name = true) :
    (submitLoop remote pushOk stack).1 = stack.map (fun b => Op.push "origin" b.name) := by
  induction stack with
  | nil => simp [submitLoop]
  | cons br rest ih =>
    have hbr := hall br (List.mem_cons_self br rest)
    simp [submitLoop, hbr]
    exact ih (fun b hb => hall b (List.mem_cons_of_mem br hb))

/-- The operations issued by `submit`'s loop do not depend on the parsed
remote identity (it only feeds the review-link URLs). -/
theorem submitLoop_ops_ignore_remote (rem1 rem2 : Remote) (pushOk : String → Bool)
    (stack : List Branch) :
    (submitLoop rem1 pushOk stack).1 = (submitLoop rem2 pushOk stack).1 := by
  induction stack with
  | nil => rfl
  | cons br rest ih =>
    by_cases hp : pushOk br.name
    · simp [submitLoop, hp, ih]
    · simp [submitLoop, hp]

/-- C8: whatever remote name `R` is configured, `submit` pushes only to the
literal remote named `"origin"` — every issued operation is a push to
`"origin"`; when every push succeeds the trace is exactly one such push per
stack member in stack order; and the configured name influences only the
review-link URLs: replacing it by any other name whose URL also parses
leaves the issued operations unchanged. -/
theorem submit_pushes_to_literal_origin (db : Database) (current_branch : String)
    (urlOf : String → String) (pushOk : String → Bool) :
    (∀ op ∈ (submit db current_branch urlOf pushOk).1, ∃ b, op = Op.push "origin" b) ∧
    (∀ remote_name remote, db.get_remote = some remote_name →
      Remote.parse (urlOf remote_name) = .ok remote →
      (∀ b ∈ db.get_branches_in_stack current_branch, pushOk b.name = true) →
      (submit db current_branch urlOf pushOk).1 =
        (db.get_branches_in_stack current_branch).map (fun b => Op.push "origin" b.name)) ∧
    (∀ name1 name2 rem1 rem2,
      Remote.parse (urlOf name1) = .ok rem1 → Remote.parse (urlOf name2) = .ok rem2 →
      (submit (db.set_remote name1) current_branch urlOf pushOk).1 =
        (submit (db.set_remote name2) current_branch urlOf pushOk).1) := by
  refine ⟨?_, ?_, ?_⟩
  · match hr : db.get_remote with
    | none => simp [submit, hr]
    | some remote_name =>
      match hp : Remote.parse (urlOf remote_name) with
      | .error e => simp [submit, hr, hp]
      | .ok remote =>
        simp only [submit, hr, hp]
        exact submitLoop_pushes_origin remote pushOk _
  · intro remote_name remote hr hp hall
    simp only [submit, hr, hp]
    exact submitLoop_all_ok_ops remote pushOk _ hall
  · intro name1 name2 rem1 rem2 h1 h2
    simp only [submit, Database.set_remote, Database.get_remote, h1, h2]
    exact submitLoop_ops_ignore_remote rem1 rem2 pushOk _

/-- Witness for C8: on the concrete stack with the source's own test URL,
every issued operation is a push to `"origin"`, and the all-success trace is
one origin-push per member. -/
theorem submit_pushes_to_literal_origin_witness :
    (∃ b, Op.push "origin" "a" = Op.push "origin" b) ∧
    (submit dbStack "c" (fun _ => "git@github.com:crockeo/diamond") (fun _ => true)).1 =
      [Op.push "origin" "a", Op.push "origin" "b", Op.push "origin" "c"] := by
  constructor
  · exact (submit_pushes_to_literal_origin dbStack "c"
      (fun _ => "git@github.com:crockeo/diamond") (fun _ => true)).1
      (Op.push "origin" "a") (by decide)
  · have h := (submit_pushes_to_literal_origin dbStack "c"
      (fun _ => "git@github.com:crockeo/diamond") (fun _ => true)).2.1 "origin"
      { organization := "crockeo", repo := "diamond" } rfl (by decide)
      (by intro b _; rfl)
    rw [h, dbStack_stack_order]
    rfl

/-! ### Claim theorems for remote URL parsing -/

/-- A block of characters satisfying `p` followed by a stopper: `takeWhile`
takes exactly the block and `dropWhile` drops exactly the block. -/
theorem takeWhile_append_stop (p : Char → Bool) (l : List Char) (d : Char) (r : List Char)
    (hl : ∀ c ∈ l, p c = true) (hd : p d = false) :
    ((l ++ d :: r).takeWhile p = l) ∧ ((l ++ d :: r).dropWhile p = d :: r) := by
  induction l with
  | nil => simp [List.takeWhile_cons, List.dropWhile_cons, hd]
  | cons c cs ih =>
    have hc := hl c (List.mem_cons_self c cs)
    have ih' := ih (fun x hx => hl x (List.mem_cons_of_mem c hx))
    simp [List.takeWhile_cons, List.dropWhile_cons, hc, ih'.1, ih'.2]

/-- `takeWhile` over a list all of whose characters satisfy `p`. -/
theorem takeWhile_all (p : Char → Bool) (l : List Char) (h : ∀ c ∈ l, p c = true) :
    l.takeWhile p = l := by
  induction l with
  | nil => rfl
  | cons c cs ih =>
    have hc := h c (List.mem_cons_self c cs)
    have ih' := ih (fun x hx => h x (List.mem_cons_of_mem c hx))
    simp [List.takeWhile_cons, hc, ih']

/-- `dropWhile` does nothing when no character satisfies `p`. -/
theorem dropWhile_of_all_false (p : Char → Bool) (l : List Char)
    (h : ∀ c ∈ l, p c = false) : l.dropWhile p = l := by
  cases l with
  | nil => rfl
  | cons c cs => simp [List.dropWhile_cons, h c (List.mem_cons_self c cs)]

/-- `trimChars` is the identity on whitespace-free character lists. -/
theorem trimChars_id (l : List Char) (h : ∀ c ∈ l, c.isWhitespace = false) :
    trimChars l = l := by
  unfold trimChars
  rw [dropWhile_of_all_false _ _ h,
    dropWhile_of_all_false _ _ (fun c hc => h c (List.mem_reverse.mp hc)),
    List.reverse_reverse]

/-- Evaluate one alternative of the regex when the remainder after the host
part decomposes as organization, `/`, repository, stopper tail. -/
theorem captureAt_eval (pat : List Pat) (cs org repo tail : List Char)
    (hmatch : matchPats pat cs = some (org ++ '/' :: (repo ++ tail)))
    (horg : org ≠ []) (horgc : ∀ c ∈ org, isOrgChar c = true)
    (hrepo : repo ≠ []) (hrt : (repo ++ tail).takeWhile isRepoChar = repo) :
    captureAt pat cs = some (org, repo) := by
  have hstop := takeWhile_append_stop isOrgChar org '/' (repo ++ tail) horgc (by decide)
  have horgne : org.isEmpty = false := by
    cases org with
    | nil => exact absurd rfl horg
    | cons c cs => rfl
  have hrepone : repo.isEmpty = false := by
    cases repo with
    | nil => exact absurd rfl hrepo
    | cons c cs => rfl
  unfold captureAt
  rw [hmatch]
  simp only [hstop.1, hstop.2, horgne, Bool.false_eq_true, if_false, hrt, hrepone]

/-- `findMatch` succeeds at the leftmost position when the scan's first
position already matches. -/
theorem findMatch_eq_of_tryAt (cs : List Char) (r : List Char × List Char)
    (hne : cs ≠ []) (h : tryAt cs = some r) : findMatch cs = some r := by
  cases cs with
  | nil => exact absurd rfl hne
  | cons c cs' => simp [findMatch, h]

/-- C7 counterexample: the claim's two example URLs with a host other than
`github.com` — `git@host:org/repo` and `https://host/org/repo.git` — are
REJECTED as malformed by `Remote::parse` (the regex's two alternatives
literally require the host `github.com`), instead of yielding organization
`org` and repository `repo` as the claim states. -/
theorem remote_parse_rejects_other_hosts :
    Remote.parse "git@host:org/repo" = .error .malformedRemoteUrl ∧
    Remote.parse "https://host/org/repo.git" = .error .malformedRemoteUrl := by
  decide

/-- C7 (amended): parsing accepts both supported forms WITH HOST
`github.com` — SSH `git@github.com:org/repo[.git]` and HTTPS
`https://github.com/org/repo[.git]` — and for each yields the organization
and repository name; a URL in which neither host pattern occurs is rejected
as malformed. (Hypotheses: the organization is nonempty without `/`, the
repository is nonempty without `/` or `.`, both whitespace-free — the
character classes the regex captures.) -/
theorem remote_parse_github_forms (org repo : String)
    (horg : org.data ≠ [])
    (horgc : ∀ c ∈ org.data, c ≠ '/' ∧ c.isWhitespace = false)
    (hrepo : repo.data ≠ [])
    (hrepoc : ∀ c ∈ repo.data, c ≠ '/' ∧ c ≠ '.' ∧ c.isWhitespace = false) :
    Remote.parse ("git@github.com:" ++ org ++ "/" ++ repo) =
      .ok { organization := org, repo := repo } ∧
    Remote.parse ("git@github.com:" ++ org ++ "/" ++ repo ++ ".git") =
      .ok { organization := org, repo := repo } ∧
    Remote.parse ("https://github.com/" ++ org ++ "/" ++ repo) =
      .ok { organization := org, repo := repo } ∧
    Remote.parse ("https://github.com/" ++ org ++ "/" ++ repo ++ ".git") =
      .ok { organization := org, repo := repo } ∧
    (∀ url : String, findMatch url.data = none →
      Remote.parse url = .error .malformedRemoteUrl) := by
  have horgc' : ∀ c ∈ org.data, isOrgChar c = true := by
    intro c hc
    exact decide_eq_true (horgc c hc).1
  have hrepoc' : ∀ c ∈ repo.data, isRepoChar c = true := by
    intro c hc
    simp [isRepoChar, (hrepoc c hc).1, (hrepoc c hc).2.1]
  have hws : ∀ c ∈ org.data, c.isWhitespace = false := fun c hc => (horgc c hc).2
  have hwsr : ∀ c ∈ repo.data, c.isWhitespace = false := fun c hc => (hrepoc c hc).2.2
  have htwnil : (repo.data ++ []).takeWhile isRepoChar = repo.data := by
    rw [List.append_nil]
    exact takeWhile_all _ _ hrepoc'
  have htwgit : (repo.data ++ '.' :: ("git").data).takeWhile isRepoChar = repo.data :=
    (takeWhile_append_stop isRepoChar repo.data '.' ("git").data hrepoc' (by decide)).1
  have htrimo : String.mk (trimChars org.data) = org := by
    rw [trimChars_id org.data hws]
  have htrimr : String.mk (trimChars repo.data) = repo := by
    rw [trimChars_id repo.data hwsr]
  refine ⟨?_, ?_, ?_, ?_, ?_⟩
  · have hdata : ("git@github.com:" ++ org ++ "/" ++ repo).data =
        ("git@github.com:").data ++ (org.data ++ '/' :: (repo.data ++ [])) := by
      simp [String.data_append]
    have hcap : captureAt patSsh
        (("git@github.com:").data ++ (org.data ++ '/' :: (repo.data ++ []))) =
        some (org.data, repo.data) :=
      captureAt_eval patSsh _ org.data repo.data [] rfl horg horgc' hrepo htwnil
    have hne : ("git@github.com:").data ++ (org.data ++ '/' :: (repo.data ++ [])) ≠ [] := by
      intro hcon
      rw [List.append_eq_nil] at hcon
      exact absurd hcon.1 (by decide)
    have hfind := findMatch_eq_of_tryAt _ (org.data, repo.data) hne
      (by simp only [tryAt, hcap])
    unfold Remote.parse
    rw [hdata, hfind]
    simp only [htrimo, htrimr]
  · have hdata : ("git@github.com:" ++ org ++ "/" ++ repo ++ ".git").data =
        ("git@github.com:").data ++ (org.data ++ '/' :: (repo.data ++ '.' :: ("git").data)) := by
      simp [String.data_append]
    have hcap : captureAt patSsh
        (("git@github.com:").data ++ (org.data ++ '/' :: (repo.data ++ '.' :: ("git").data))) =
        some (org.data, repo.data) :=
      captureAt_eval patSsh _ org.data repo.data ('.' :: ("git").data) rfl horg horgc' hrepo htwgit
    have hne : ("git@github.com:").data ++
        (org.data ++ '/' :: (repo.data ++ '.' :: ("git").data)) ≠ [] := by
      intro hcon
      rw [List.append_eq_nil] at hcon
      exact absurd hcon.1 (by decide)
    have hfind := findMatch_eq_of_tryAt _ (org.data, repo.data) hne
      (by simp only [tryAt, hcap])
    unfold Remote.parse
    rw [hdata, hfind]
    simp only [htrimo, htrimr]
  · have hdata : ("https://github.com/" ++ org ++ "/" ++ repo).data =
        ("https://github.com/").data ++ (org.data ++ '/' :: (repo.data ++ [])) := by
      simp [String.data_append]
    have hcap : captureAt patHttps
        (("https://github.com/").data ++ (org.data ++ '/' :: (repo.data ++ []))) =
        some (org.data, repo.data) :=
      captureAt_eval patHttps _ org.data repo.data [] rfl horg horgc' hrepo htwnil
    have hssh : captureAt patSsh
        (("https://github.com/").data ++ (org.data ++ '/' :: (repo.data ++ []))) = none := rfl
    have hne : ("https://github.com/").data ++ (org.data ++ '/' :: (repo.data ++ [])) ≠ [] := by
      intro hcon
      rw [List.append_eq_nil] at hcon
      exact absurd hcon.1 (by decide)
    have hfind := findMatch_eq_of_tryAt _ (org.data, repo.data) hne
      (by simp only [tryAt, hssh, hcap])
    unfold Remote.parse
    rw [hdata, hfind]
    simp only [htrimo, htrimr]
  · have hdata : ("https://github.com/" ++ org ++ "/" ++ repo ++ ".git").data =
        ("https://github.com/").data ++ (org.data ++ '/' :: (repo.data ++ '.' :: ("git").data)) := by
      simp [String.data_append]
    have hcap : captureAt patHttps
        (("https://github.com/").data ++ (org.data ++ '/' :: (repo.data ++ '.' :: ("git").data))) =
        some (org.data, repo.data) :=
      captureAt_eval patHttps _ org.data repo.data ('.' :: ("git").data) rfl horg horgc' hrepo htwgit
    have hssh : captureAt patSsh
        (("https://github.com/").data ++
          (org.data ++ '/' :: (repo.data ++ '.' :: ("git").data))) = none := rfl
    have hne : ("https://github.com/").data ++
        (org.data ++ '/' :: (repo.data ++ '.' :: ("git").data)) ≠ [] := by
      intro hcon
      rw [List.append_eq_nil] at hcon
      exact absurd hcon.1 (by decide)
    have hfind := findMatch_eq_of_tryAt _ (org.data, repo.data) hne
      (by simp only [tryAt, hssh, hcap])
    unfold Remote.parse
    rw [hdata, hfind]
    simp only [htrimo, htrimr]
  · intro url hurl
    simp [Remote.parse, hurl]

/-- Witness for C7's amended claim at the source's own test data: both
supported github.com forms parse to `crockeo` / `diamond`. -/
theorem remote_parse_github_forms_witness :
    Remote.parse "git@github.com:crockeo/diamond" =
      .ok { organization := "crockeo", repo := "diamond" } ∧
    Remote.parse "https://github.com/crockeo/diamond.git" =
      .ok { organization := "crockeo", repo := "diamond" } := by
  have h := remote_parse_github_forms "crockeo" "diamond"
    (by decide) (by decide) (by decide) (by decide)
  exact ⟨h.1, h.2.2.2.1⟩

/-! ### Store invariants

States reachable through the store's own operations: a `set_root_branch`
on an empty store followed by `create_branch` calls (and `set_remote`,
which does not touch the branch table). These are the "branch sets built by
a sequence of createBranch calls forming a tree". -/

/-- Every row's parent (when non-null) is the name of a STRICTLY EARLIER
row — true of reachable states because `create_branch` checks the parent
exists before appending. -/
def ParentEarlier (branches : List Row) : Prop :=
  ∀ i, ∀ hi : i < branches.length, ∀ p : String, branches[i].parent = some p →
    ∃ j, ∃ hj : j < branches.length, j < i ∧ branches[j].name = p

/-- Databases built by the store's own operations: initialize the root via
`set_root_branch` on an empty store, then any sequence of successful
`create_branch` calls (plus `set_remote`, which leaves the branch table
alone). -/
inductive Built : Database → Prop
  | init (remote : Option String) (root_branch : String) (db : Database) :
      Database.set_root_branch { branches := [], remote := remote } root_branch = .ok db →
      Built db
  | create (db : Database) (current_branch new_branch : String) (db' : Database) :
      Built db → Database.create_branch db current_branch new_branch = .ok db' →
      Built db'
  | setRemote (db : Database) (r : String) :
      Built db → Built (db.set_remote r)

/-- The structural invariant of reachable stores: distinct names, the
parent-earlier property, and the shape "root row first, all later rows
non-root". -/
structure TreeInv (db : Database) : Prop where
  nodup : (db.branches.map (fun row => row.name)).Nodup
  earlier : ParentEarlier db.branches
  shape : ∃ root rest, db.branches = { name := root, parent := none } :: rest ∧
    ∀ row ∈ rest, row.parent ≠ none

/-- Successful `create_branch` characterized: the parent is tracked, the
new name is fresh, and the new row is appended. -/
theorem create_branch_ok_iff (db : Database) (cur new : String) (db' : Database) :
    db.create_branch cur new = .ok db' ↔
      (∃ row ∈ db.branches, row.name = cur) ∧
      (∀ row ∈ db.branches, row.name ≠ new) ∧
      db' = { db with branches := db.branches ++ [{ name := new, parent := some cur }] } := by
  unfold Database.create_branch insertRow
  by_cases hcur : 0 < (db.branches.filter (fun row => row.name = cur)).length
  · by_cases hnew : 0 < (db.branches.filter (fun r => r.name = new)).length
    · simp only [hcur, if_true, hnew, if_true]
      constructor
      · intro h
        exact absurd h (by simp)
      · intro ⟨_, hfresh, _⟩
        rw [List.length_pos_iff_exists_mem] at hnew
        obtain ⟨row, hrow⟩ := hnew
        rw [List.mem_filter] at hrow
        exact absurd (by simpa using hrow.2) (hfresh row hrow.1)
    · simp only [hcur, if_true, hnew, if_false]
      constructor
      · intro h
        refine ⟨?_, ?_, ?_⟩
        · rw [List.length_pos_iff_exists_mem] at hcur
          obtain ⟨row, hrow⟩ := hcur
          rw [List.mem_filter] at hrow
          exact ⟨row, hrow.1, by simpa using hrow.2⟩
        · intro row hrow hcon
          apply hnew
          rw [List.length_pos_iff_exists_mem]
          exact ⟨row, List.mem_filter.mpr ⟨hrow, by simpa using hcon⟩⟩
        · cases h
          rfl
      · intro ⟨_, _, hdb⟩
        rw [hdb]
  · simp only [hcur, if_false]
    constructor
    · intro h
      exact absurd h (by simp)
    · intro ⟨⟨row, hrow, hname⟩, _, _⟩
      apply absurd hcur
      simp only [not_not]
      rw [List.length_pos_iff_exists_mem]
      exact ⟨row, List.mem_filter.mpr ⟨hrow, by simpa using hname⟩⟩

/-- Reachable stores satisfy the structural invariant. -/
theorem Built.treeInv (db : Database) (h : Built db) : TreeInv db := by
  induction h with
  | init remote root_branch db hinit =>
    have : db = { branches := [{ name := root_branch, parent := none }], remote := remote } := by
      simp [Database.set_root_branch, Database.root_branches, insertRow] at hinit
      exact hinit.symm
    subst this
    refine ⟨by simp, ?_, root_branch, [], rfl, by simp⟩
    intro i hi p hp
    simp at hi
    subst hi
    simp at hp
  | create db cur new db' _ hcreate ih =>
    rw [create_branch_ok_iff] at hcreate
    obtain ⟨⟨prow, hprow, hpname⟩, hfresh, hdb'⟩ := hcreate
    subst hdb'
    obtain ⟨hnodup, hearlier, root, rest, hshape, hrest⟩ := ih
    refine ⟨?_, ?_, ?_⟩
    · simp only [List.map_append, List.map_cons, List.map_nil]
      rw [List.nodup_append]
      refine ⟨hnodup, by simp, ?_⟩
      intro x hx
      simp only [List.mem_map] at hx
      obtain ⟨row, hrow, hrx⟩ := hx
      simp only [List.mem_singleton]
      intro hcon
      exact hfresh row hrow (by rw [hcon] at hrx; exact hrx)
    · intro i hi p hp
      simp only [List.length_append, List.length_cons, List.length_nil] at hi
      by_cases hlt : i < db.branches.length
      · rw [List.getElem_append_left hlt] at hp
        obtain ⟨j, hj, hji, hjname⟩ := hearlier i hlt p hp
        exact ⟨j, by simp; omega, hji, by rw [List.getElem_append_left hj]; exact hjname⟩
      · have hieq : i = db.branches.length := by omega
        subst hieq
        rw [List.getElem_append_right (le_refl _)] at hp
        simp at hp
        subst hp
        obtain ⟨j, hj, hjname⟩ := List.mem_iff_getElem.mp hprow
        refine ⟨j, by simp; omega, hj, ?_⟩
        rw [List.getElem_append_left hj, hjname]
        exact hpname
    · refine ⟨root, rest ++ [{ name := new, parent := some cur }], by rw [hshape]; simp, ?_⟩
      intro row hrow
      rcases List.mem_append.mp hrow with h | h
      · exact hrest row h
      · simp at h
        subst h
        simp
  | setRemote db r _ ih =>
    obtain ⟨hnodup, hearlier, hshape⟩ := ih
    exact ⟨hnodup, hearlier, hshape⟩

/-- In a reachable store whose (unique) root has no children, the branch
table is exactly the root row: any further row's parent chain would have to
enter through a child of the root. -/
theorem childless_root_singleton (db : Database) (hinv : TreeInv db) (r0 : String)
    (hroot : db.root_branches = [r0])
    (hnochild : (db.branches.filter (fun row => row.parent = some r0)).length = 0) :
    db.branches = [{ name := r0, parent := none }] := by
  obtain ⟨hnodup, hearlier, root, rest, hshape, hrest⟩ := hinv
  have hr0 : root = r0 := by
    have h2 : db.root_branches = root :: (rest.filter (fun row => row.parent = none)).map
        (fun row => row.name) := by
      simp [Database.root_branches, hshape]
    rw [hroot] at h2
    exact (List.cons.injEq _ _ _ _ ▸ h2).1.symm
  subst hr0
  rw [hshape] at hearlier hnochild
  rw [hshape]
  cases hrestc : rest with
  | nil => rfl
  | cons row rest' =>
    subst hrestc
    exfalso
    have hp : ∃ p, row.parent = some p := by
      have hne := hrest row (List.mem_cons_self row rest')
      cases hrp : row.parent with
      | none => exact absurd hrp hne
      | some p => exact ⟨p, rfl⟩
    obtain ⟨p, hp⟩ := hp
    have hidx : ({ name := root, parent := none } :: row :: rest')[1].parent = some p := hp
    obtain ⟨j, hj, hj1, hjname⟩ := hearlier 1 (by simp) p hidx
    have hj0 : j = 0 := by omega
    subst hj0
    have hpr : p = root := by simpa using hjname.symm
    rw [hpr] at hp
    have hmem : row ∈ ({ name := root, parent := none } :: row :: rest').filter
        (fun row => row.parent = some root) :=
      List.mem_filter.mpr ⟨by simp, by simp [hp]⟩
    rw [List.length_eq_zero] at hnochild
    rw [hnochild] at hmem
    simp at hmem

/-- C5: `set_root_branch` (i) fails with the multiple-roots error — leaving
the table unchanged via rollback — whenever validation finds two or more
null-parent rows; (ii) fails with the root-has-children error — leaving the
table unchanged — whenever the existing root has one or more children; and
(iii) on a reachable store whose root has no children, deletes the old root
row and inserts the new root within the single transaction, leaving exactly
the new root row. -/
theorem set_root_branch_characterization (db : Database) (new_root : String) :
    (db.root_branches.length ≥ 2 →
      db.set_root_branch new_root = .error .multipleRoots ∧
      applyTx db (db.set_root_branch new_root) = db) ∧
    (∀ r0, db.root_branches = [r0] →
      (db.branches.filter (fun row => row.parent = some r0)).length > 0 →
      db.set_root_branch new_root = .error .rootHasChildren ∧
      applyTx db (db.set_root_branch new_root) = db) ∧
    (∀ r0, Built db → db.root_branches = [r0] →
      (db.branches.filter (fun row => row.parent = some r0)).length = 0 →
      db.set_root_branch new_root =
        .ok { branches := [{ name := new_root, parent := none }], remote := db.remote }) := by
  refine ⟨?_, ?_, ?_⟩
  · intro hmulti
    have h : db.set_root_branch new_root = .error .multipleRoots := by
      unfold Database.set_root_branch
      simp only [hmulti, if_true]
    exact ⟨h, by rw [h]; rfl⟩
  · intro r0 hroot hchild
    have h : db.set_root_branch new_root = .error .rootHasChildren := by
      unfold Database.set_root_branch
      rw [hroot]
      simp only [List.length_singleton, List.getLast?_singleton]
      have : ¬ (1 ≥ 2) := by omega
      simp only [this, if_false, hchild, if_true]
    exact ⟨h, by rw [h]; rfl⟩
  · intro r0 hbuilt hroot hnochild
    have hsing := childless_root_singleton db (Built.treeInv db hbuilt) r0 hroot hnochild
    unfold Database.set_root_branch
    rw [hroot]
    simp only [List.length_singleton, List.getLast?_singleton]
    have h2 : ¬ (1 ≥ 2) := by omega
    simp only [h2, if_false, hnochild]
    simp [hsing, insertRow]

/-- A table with two null-parent rows (not reachable; exercises the
defensive validation). -/
def dbTwoRoots : Database :=
  { branches := [ { name := "x", parent := none }, { name := "y", parent := none } ]
  , remote := none }

/-- A freshly initialized store holding only the root `main`. -/
def dbSingleRoot : Database :=
  { branches := [ { name := "main", parent := none } ], remote := none }

/-- Witness for C5: a two-root table is rejected as having multiple roots;
the concrete stack's root `main` has a child, so replacing it is rejected
with the table unchanged; and a reachable single-root childless store is
replaced successfully. -/
theorem set_root_branch_characterization_witness :
    dbTwoRoots.set_root_branch "z" = .error .multipleRoots ∧
    (dbStack.set_root_branch "z" = .error .rootHasChildren ∧
      applyTx dbStack (dbStack.set_root_branch "z") = dbStack) ∧
    dbSingleRoot.set_root_branch "z" =
      .ok { branches := [ { name := "z", parent := none } ], remote := none } := by
  refine ⟨?_, ?_, ?_⟩
  · exact ((set_root_branch_characterization dbTwoRoots "z").1 (by decide)).1
  · exact (set_root_branch_characterization dbStack "z").2.1 "main" (by decide) (by decide)
  · exact (set_root_branch_characterization dbSingleRoot "z").2.2 "main"
      (Built.init none "main" dbSingleRoot (by decide)) (by decide) (by decide)

/-! ### The stack query versus the claim: ancestors/descendants -/

/-- Modelled from the spec: the ancestors of a branch are the branches on
its parent chain up to the root (the claim's "ancestors of b, excluding the
root" are these minus the root; `x` is a descendant of `b` iff `b` is in
`x`'s chain). Fuel-bounded chain walk over the table. -/
def specAncestorChain (branches : List Row) : Nat → String → List String
  | 0, _ => []
  | fuel + 1, name =>
    match branches.find? (fun row => row.name = name) with
    | none => []
    | some row =>
      match row.parent with
      | none => []
      | some parent => parent :: specAncestorChain branches fuel parent

/-- The ancestors of `branch` (including the root, which the claim then
excludes). -/
def Database.ancestorsSpec (db : Database) (branch : String) : List String :=
  specAncestorChain db.branches db.branches.length branch

/-- A branching tree: `main <- a`, `a <- b`, `a <- c` — `b` and `c` are
siblings. -/
def dbTree : Database :=
  { branches := [ { name := "main", parent := none }
                , { name := "a", parent := some "main" }
                , { name := "b", parent := some "a" }
                , { name := "c", parent := some "a" } ]
  , remote := none }

/-- C2 counterexample: in the tree `main <- a <- {b, c}` the query's result
for `b` CONTAINS the sibling `c`, although `c` is not an ancestor of `b`
(`c` is not on `b`'s parent chain) and not a descendant of `b` (`b` is not
on `c`'s parent chain) — the recursive CTE explores parent links of
already-found descendants and child links of already-found ancestors, so it
returns the whole connected tree, not just `b`'s ancestors and descendants. -/
theorem get_branches_in_stack_includes_siblings :
    ("c" ∈ (dbTree.get_branches_in_stack "b").map (fun br => br.name)) ∧
    ("c" ∉ dbTree.ancestorsSpec "b") ∧
    ("b" ∉ dbTree.ancestorsSpec "c") := by
  decide

/-! ### Saturation lemmas for the closure -/

/-- Already-seen names stay in one saturation step. -/
theorem mem_stackGrow_self (branches : List Row) (seen : List String) (x : String)
    (hx : x ∈ seen) : x ∈ stackGrow branches seen := by
  unfold stackGrow
  rw [List.mem_dedup]
  exact List.mem_append_left _ hx

/-- A neighbour of a seen name is in after one saturation step. -/
theorem mem_stackGrow_of_neighbor (branches : List Row) (seen : List String) (x y : String)
    (hx : x ∈ seen) (hy : y ∈ stackNeighbors branches x) : y ∈ stackGrow branches seen := by
  unfold stackGrow
  rw [List.mem_dedup]
  refine List.mem_append_right _ ?_
  rw [List.mem_flatMap]
  exact ⟨x, hx, hy⟩

/-- One saturation step is monotone in membership. -/
theorem stackGrow_mono (branches : List Row) (s t : List String)
    (hst : ∀ a ∈ s, a ∈ t) : ∀ x ∈ stackGrow branches s, x ∈ stackGrow branches t := by
  intro x hx
  unfold stackGrow at hx ⊢
  rw [List.mem_dedup] at hx ⊢
  rcases List.mem_append.mp hx with h | h
  · exact List.mem_append_left _ (hst x h)
  · rw [List.mem_flatMap] at h
    obtain ⟨a, ha, hxa⟩ := h
    refine List.mem_append_right _ ?_
    rw [List.mem_flatMap]
    exact ⟨a, hst a ha, hxa⟩

/-- Iterated saturation is monotone in membership. -/
theorem iterate_stackGrow_mono (branches : List Row) (n : Nat) (s t : List String)
    (hst : ∀ a ∈ s, a ∈ t) :
    ∀ x ∈ (stackGrow branches)^[n] s, x ∈ (stackGrow branches)^[n] t := by
  induction n generalizing s t with
  | zero => exact hst
  | succ n ih =>
    rw [Function.iterate_succ_apply, Function.iterate_succ_apply]
    exact ih _ _ (stackGrow_mono branches s t hst)

/-- Membership survives extra saturation steps. -/
theorem mem_iterate_stackGrow_le (branches : List Row) (m n : Nat) (hmn : m ≤ n)
    (s : List String) (x : String) (hx : x ∈ (stackGrow branches)^[m] s) :
    x ∈ (stackGrow branches)^[n] s := by
  induction n with
  | zero =>
    have hm : m = 0 := by omega
    subst hm
    exact hx
  | succ n ih =>
    by_cases hm : m = n + 1
    · subst hm
      exact hx
    · have h' := ih (by omega)
      rw [Function.iterate_succ_apply']
      exact mem_stackGrow_self branches _ x h'

/-- A neighbour of a name reached in `n` steps is reached in `n + 1`. -/
theorem mem_iterate_stackGrow_step (branches : List Row) (n : Nat) (s : List String)
    (x y : String) (hx : x ∈ (stackGrow branches)^[n] s)
    (hy : y ∈ stackNeighbors branches x) :
    y ∈ (stackGrow branches)^[n + 1] s := by
  rw [Function.iterate_succ_apply']
  exact mem_stackGrow_of_neighbor branches _ x y hx hy

/-! ### Depth lemmas -/

/-- With distinct names, looking a member row up by its own name finds it. -/
theorem find_name_of_mem (branches : List Row)
    (hnodup : (branches.map (fun row => row.name)).Nodup)
    (row : Row) (hrow : row ∈ branches) :
    branches.find? (fun r => r.name = row.name) = some row := by
  induction branches with
  | nil => simp at hrow
  | cons head tail ih =>
    simp only [List.map_cons, List.nodup_cons] at hnodup
    rcases List.mem_cons.mp hrow with h | h
    · subst h
      simp
    · have hne : ¬ (head.name = row.name) := by
        intro hcon
        exact hnodup.1 (hcon ▸ List.mem_map_of_mem (fun r => r.name) h)
      rw [List.find?_cons_of_neg _ (by simpa using hne)]
      exact ih hnodup.2 h

/-- `branchDepth` is monotone in the fuel. -/
theorem branchDepth_mono (branches : List Row) (fuel : Nat) (x : String) (d : Nat)
    (h : branchDepth branches fuel x = some d) :
    ∀ fuel', fuel ≤ fuel' → branchDepth branches fuel' x = some d := by
  induction fuel generalizing x d with
  | zero => simp [branchDepth] at h
  | succ fuel ih =>
    intro fuel' hf
    match fuel', hf with
    | fuel' + 1, _ =>
      match hfind : branches.find? (fun row => row.name = x) with
      | none => simp [branchDepth, hfind] at h
      | some row =>
        match hp : row.parent with
        | none =>
          simp only [branchDepth, hfind, hp] at h ⊢
          exact h
        | some parent =>
          simp only [branchDepth, hfind, hp, Option.map_eq_some'] at h ⊢
          obtain ⟨d', hd', hdd⟩ := h
          exact ⟨d', ih parent d' hd' fuel' (by omega), hdd⟩

/-- Under the parent-earlier invariant, the row at index `i` has a defined
depth of at most `i` (computable with fuel `i + 1`). -/
theorem depth_le_index (branches : List Row)
    (hnodup : (branches.map (fun row => row.name)).Nodup)
    (hearlier : ParentEarlier branches) :
    ∀ i, ∀ hi : i < branches.length,
      ∃ d, d ≤ i ∧ branchDepth branches (i + 1) (branches[i].name) = some d := by
  intro i
  induction i using Nat.strong_induction_on with
  | _ i ih =>
    intro hi
    have hfind := find_name_of_mem branches hnodup branches[i] (branches.getElem_mem hi)
    match hp : branches[i].parent with
    | none =>
      refine ⟨0, by omega, ?_⟩
      simp [branchDepth, hfind, hp]
    | some p =>
      obtain ⟨j, hj, hji, hjname⟩ := hearlier i hi p hp
      obtain ⟨d', hd'le, hd'⟩ := ih j hji hj
      rw [hjname] at hd'
      refine ⟨d' + 1, by omega, ?_⟩
      simp only [branchDepth, hfind, hp]
      rw [branchDepth_mono branches (j + 1) p d' hd' i (by omega)]
      rfl

/-- Every member row has a defined depth below the table length, at the
canonical fuel (the table length). -/
theorem depth_of_mem (branches : List Row)
    (hnodup : (branches.map (fun row => row.name)).Nodup)
    (hearlier : ParentEarlier branches)
    (row : Row) (hrow : row ∈ branches) :
    ∃ d, d < branches.length ∧
      branchDepth branches branches.length row.name = some d := by
  obtain ⟨i, hi, hieq⟩ := List.mem_iff_getElem.mp hrow
  obtain ⟨d, hdle, hd⟩ := depth_le_index branches hnodup hearlier i hi
  rw [hieq] at hd
  exact ⟨d, by omega, branchDepth_mono branches (i + 1) row.name d hd branches.length (by omega)⟩

/-- A member row with a parent: the parent is tracked, one level
shallower. -/
theorem depth_parent (branches : List Row)
    (hnodup : (branches.map (fun row => row.name)).Nodup)
    (hearlier : ParentEarlier branches)
    (row : Row) (hrow : row ∈ branches) (p : String) (hp : row.parent = some p) :
    ∃ dp, branchDepth branches branches.length p = some dp ∧
      branchDepth branches branches.length row.name = some (dp + 1) ∧
      ∃ prow ∈ branches, prow.name = p := by
  obtain ⟨i, hi, hieq⟩ := List.mem_iff_getElem.mp hrow
  obtain ⟨j, hj, hji, hjname⟩ := hearlier i hi p (by rw [hieq]; exact hp)
  obtain ⟨dp, hdple, hdp⟩ := depth_le_index branches hnodup hearlier j hj
  rw [hjname] at hdp
  have hfind := find_name_of_mem branches hnodup row hrow
  have hdepth : branchDepth branches (i + 1) row.name = some (dp + 1) := by
    simp only [branchDepth, hfind, hp]
    rw [branchDepth_mono branches (j + 1) p dp hdp i (by omega)]
    rfl
  exact ⟨dp, branchDepth_mono branches (j + 1) p dp hdp branches.length (by omega),
    branchDepth_mono branches (i + 1) row.name (dp + 1) hdepth branches.length (by omega),
    branches[j], branches.getElem_mem hj, hjname⟩

/-! ### Connectivity: the closure reaches the whole tree -/

/-- A row whose parent is null is the root row (the table's shape puts the
single root row first and gives every later row a parent). -/
theorem parent_none_eq_root (branches : List Row) (root : String) (rest : List Row)
    (hshape : branches = { name := root, parent := none } :: rest)
    (hrest : ∀ row ∈ rest, row.parent ≠ none)
    (row : Row) (hrow : row ∈ branches) (hp : row.parent = none) :
    row = { name := root, parent := none } := by
  subst hshape
  rcases List.mem_cons.mp hrow with h | h
  · exact h
  · exact absurd hp (hrest row h)

/-- Walking up: from any reached branch of depth `d`, the root is reached
after `d` more saturation steps. -/
theorem root_mem_iterate (branches : List Row) (root : String) (rest : List Row)
    (hshape : branches = { name := root, parent := none } :: rest)
    (hrest : ∀ row ∈ rest, row.parent ≠ none) :
    ∀ d fuel x, branchDepth branches fuel x = some d →
      ∀ n s, x ∈ (stackGrow branches)^[n] s →
        root ∈ (stackGrow branches)^[n + d] s := by
  intro d
  induction d with
  | zero =>
    intro fuel x hdep n s hx
    match fuel with
    | 0 => simp [branchDepth] at hdep
    | fuel + 1 =>
      match hfind : branches.find? (fun row => row.name = x) with
      | none => simp [branchDepth, hfind] at hdep
      | some row =>
        match hp : row.parent with
        | some parent => simp [branchDepth, hfind, hp] at hdep
        | none =>
          have hmem := List.mem_of_find?_eq_some hfind
          have hname : row.name = x := by
            have := List.find?_some hfind
            simpa using this
          have hroot := parent_none_eq_root branches root rest hshape hrest row hmem hp
          have hxr : x = root := by rw [← hname, hroot]
          rw [Nat.add_zero]
          rw [← hxr]
          exact hx
  | succ d ih =>
    intro fuel x hdep n s hx
    match fuel with
    | 0 => simp [branchDepth] at hdep
    | fuel + 1 =>
      match hfind : branches.find? (fun row => row.name = x) with
      | none => simp [branchDepth, hfind] at hdep
      | some row =>
        match hp : row.parent with
        | none => simp [branchDepth, hfind, hp] at hdep
        | some parent =>
          simp only [branchDepth, hfind, hp, Option.map_eq_some'] at hdep
          obtain ⟨d', hd', hdd⟩ := hdep
          have hd'' : branchDepth branches fuel parent = some d := by
            have hde : d' = d := by omega
            rw [← hde]
            exact hd'
          have hmem := List.mem_of_find?_eq_some hfind
          have hname : row.name = x := by
            have := List.find?_some hfind
            simpa using this
          have hpn : parent ∈ stackNeighbors branches x := by
            unfold stackNeighbors
            refine List.mem_append_right _ ?_
            rw [List.mem_filterMap]
            exact ⟨row, List.mem_filter.mpr ⟨hmem, by simp [hname]⟩, hp⟩
          have hstep := mem_iterate_stackGrow_step branches n s x parent hx hpn
          have := ih fuel parent hd'' (n + 1) s hstep
          have harith : n + 1 + d = n + (d + 1) := by omega
      
      
          rw [harith] at this
          exact this

/-- Walking down: once the root is reached, any branch of depth `d` is
reached after `d` more saturation steps. -/
theorem mem_iterate_of_depth (branches : List Row) (root : String) (rest : List Row)
    (hshape : branches = { name := root, parent := none } :: rest)
    (hrest : ∀ row ∈ rest, row.parent ≠ none) :
    ∀ d fuel y, branchDepth branches fuel y = some d →
      ∀ n s, root ∈ (stackGrow branches)^[n] s →
        y ∈ (stackGrow branches)^[n + d] s := by
  intro d
  induction d with
  | zero =>
    intro fuel y hdep n s hroot
    match fuel with
    | 0 => simp [branchDepth] at hdep
    | fuel + 1 =>
      match hfind : branches.find? (fun row => row.name = y) with
      | none => simp [branchDepth, hfind] at hdep
      | some row =>
        match hp : row.parent with
        | some parent => simp [branchDepth, hfind, hp] at hdep
        | none =>
          have hmem := List.mem_of_find?_eq_some hfind
          have hname : row.name = y := by
            have := List.find?_some hfind
            simpa using this
          have hrooteq := parent_none_eq_root branches root rest hshape hrest row hmem hp
          have hyr : y = root := by rw [← hname, hrooteq]
          rw [Nat.add_zero, hyr]
          exact hroot
  | succ d ih =>
    intro fuel y hdep n s hroot
    match fuel with
    | 0 => simp [branchDepth] at hdep
    | fuel + 1 =>
      match hfind : branches.find? (fun row => row.name = y) with
      | none => simp [branchDepth, hfind] at hdep
      | some row =>
        match hp : row.parent with
        | none => simp [branchDepth, hfind, hp] at hdep
        | some parent =>
          simp only [branchDepth, hfind, hp, Option.map_eq_some'] at hdep
          obtain ⟨d', hd', hdd⟩ := hdep
          have hd'' : branchDepth branches fuel parent = some d := by
            have hde : d' = d := by omega
            rw [← hde]
            exact hd'
          have hmem := List.mem_of_find?_eq_some hfind
          have hname : row.name = y := by
            have := List.find?_some hfind
            simpa using this
          have hpar := ih fuel parent hd'' n s hroot
          have hyn : y ∈ stackNeighbors branches parent := by
            unfold stackNeighbors
            refine List.mem_append_left _ ?_
            rw [List.mem_map]
            exact ⟨row, List.mem_filter.mpr ⟨hmem, by simp [hp]⟩, hname⟩
          have hstep := mem_iterate_stackGrow_step branches (n + d) s parent y hpar hyn
          have harith : n + d + 1 = n + (d + 1) := by omega
          rw [harith] at hstep
          exact hstep

/-- Completeness of the stack closure: starting from any tracked branch,
the saturated closure contains every tracked name (the whole tree is one
undirected component through the root). -/
theorem all_names_mem_closure (db : Database) (hinv : TreeInv db) (b : String)
    (hb : ∃ brow ∈ db.branches, brow.name = b) :
    ∀ row ∈ db.branches, row.name ∈ stackClosure db.branches b := by
  obtain ⟨hnodup, hearlier, root, rest, hshape, hrest⟩ := hinv
  obtain ⟨brow, hbrow, hbname⟩ := hb
  obtain ⟨dB, hdBlt, hdB⟩ := depth_of_mem db.branches hnodup hearlier brow hbrow
  rw [hbname] at hdB
  intro row hrow
  obtain ⟨dy, hdylt, hdy⟩ := depth_of_mem db.branches hnodup hearlier row hrow
  have hb0 : b ∈ (stackGrow db.branches)^[0] [b] := by
    simp
  have hroot := root_mem_iterate db.branches root rest hshape hrest dB db.branches.length b
    hdB 0 [b] hb0
  have hy := mem_iterate_of_depth db.branches root rest hshape hrest dy db.branches.length
    row.name hdy (0 + dB) [b] hroot
  exact mem_iterate_stackGrow_le db.branches (0 + dB + dy) (2 * db.branches.length + 1)
    (by omega) [b] row.name hy

/-! ### The corrected contract of the stack query -/

/-- The tracked non-root branches, each with its parent, in table order:
the reference value for the query's output ("every tracked non-root branch,
exactly once, with its parent"). -/
def nonRootBranches (branches : List Row) : List Branch :=
  branches.filterMap (fun row =>
    match row.parent with
    | none => none
    | some parent => some { name := row.name, parent := parent })

/-- The names of the non-root branches form a sublist of the table's
names. -/
theorem nonRootBranches_names_sublist (l : List Row) :
    ((nonRootBranches l).map (fun br => br.name)).Sublist (l.map (fun row => row.name)) := by
  induction l with
  | nil => simp [nonRootBranches]
  | cons row rest ih =>
    cases hp : row.parent with
    | none =>
      simp only [nonRootBranches, List.filterMap_cons, hp, List.map_cons]
      exact ih.cons _
    | some p =>
      simp only [nonRootBranches, List.filterMap_cons, hp, List.map_cons]
      exact ih.cons₂ _

/-- In a well-formed table no row is its own parent. -/
theorem name_ne_parent (branches : List Row)
    (hnodup : (branches.map (fun row => row.name)).Nodup)
    (hearlier : ParentEarlier branches) :
    ∀ row ∈ branches, ∀ p, row.parent = some p → row.name ≠ p := by
  intro row hrow p hp hcon
  obtain ⟨i, hi, hieq⟩ := List.mem_iff_getElem.mp hrow
  obtain ⟨j, hj, hji, hjname⟩ := hearlier i hi p (by rw [hieq]; exact hp)
  have hpair := List.pairwise_iff_getElem.mp hnodup j i (by simpa using hj)
    (by simpa using hi) hji
  simp only [List.getElem_map] at hpair
  apply hpair
  rw [hjname, hieq, hcon]

/-- C2 (amended): for a branch table built by `createBranch` calls from a
single root (`Built`), the stack query for any tracked non-root branch `b`
returns ALL tracked non-root branches of the tree, each exactly once with
its parent — that is the whole connected component of `b`, which includes
branches (e.g. siblings) that are neither ancestors nor descendants of `b`
— and in an order in which every branch's parent is either the root or
appears earlier in the list. -/
theorem get_branches_in_stack_whole_tree (db : Database) (b : String)
    (hbuilt : Built db) (brow : Row) (hbrow : brow ∈ db.branches) (hbname : brow.name = b)
    (_hbnonroot : brow.parent ≠ none) :
    (db.get_branches_in_stack b).Perm (nonRootBranches db.branches) ∧
    ((db.get_branches_in_stack b).map (fun br => br.name)).Nodup ∧
    (∀ j, ∀ hj : j < (db.get_branches_in_stack b).length,
      (∃ rrow ∈ db.branches, rrow.parent = none ∧
        rrow.name = ((db.get_branches_in_stack b)[j]).parent) ∨
      (∃ i, i < j ∧ ∃ hi : i < (db.get_branches_in_stack b).length,
        ((db.get_branches_in_stack b)[i]).name = ((db.get_branches_in_stack b)[j]).parent)) := by
  obtain ⟨hnodup, hearlier, root, rest, hshape, hrest⟩ := Built.treeInv db hbuilt
  have hinv : TreeInv db := ⟨hnodup, hearlier, root, rest, hshape, hrest⟩
  have hnp := name_ne_parent db.branches hnodup hearlier
  have hcl := all_names_mem_closure db hinv b ⟨brow, hbrow, hbname⟩
  have hrows_eq : db.branches.filterMap (fun row =>
      match row.parent with
      | none => none
      | some parent =>
        if row.name ≠ parent ∧ row.name ∈ stackClosure db.branches b then
          some { name := row.name, parent := parent }
        else none) = nonRootBranches db.branches := by
    apply List.filterMap_congr
    intro row hrow
    cases hp : row.parent with
    | none => rfl
    | some p =>
      have h1 : row.name ≠ p := hnp row hrow p hp
      have h2 : row.name ∈ stackClosure db.branches b := hcl row hrow
      simp [h1, h2]
  have hnodupR : ((nonRootBranches db.branches).map (fun br => br.name)).Nodup :=
    (nonRootBranches_names_sublist db.branches).nodup hnodup
  have hnodupRlist : (nonRootBranches db.branches).Nodup :=
    List.Nodup.of_map _ hnodupR
  have hL : db.get_branches_in_stack b =
      List.insertionSort
        (fun b1 b2 => stackLevel db.branches b b1.name ≤ stackLevel db.branches b b2.name)
        (nonRootBranches db.branches) := by
    unfold Database.get_branches_in_stack
    rw [hrows_eq, List.dedup_eq_self.mpr hnodupRlist]
  have hperm : (db.get_branches_in_stack b).Perm (nonRootBranches db.branches) := by
    rw [hL]
    exact List.perm_insertionSort _ _
  refine ⟨hperm, ?_, ?_⟩
  · rw [(hperm.map (fun br => br.name)).nodup_iff]
    exact hnodupR
  · haveI : IsTotal Branch
        (fun b1 b2 => stackLevel db.branches b b1.name ≤ stackLevel db.branches b b2.name) :=
      ⟨fun x y => Int.le_total _ _⟩
    haveI : IsTrans Branch
        (fun b1 b2 => stackLevel db.branches b b1.name ≤ stackLevel db.branches b b2.name) :=
      ⟨fun x y z hxy hyz => le_trans hxy hyz⟩
    have hsorted : List.Sorted
        (fun b1 b2 => stackLevel db.branches b b1.name ≤ stackLevel db.branches b b2.name)
        (db.get_branches_in_stack b) := by
      rw [hL]
      exact List.sorted_insertionSort _ _
    intro j hj
    have hxL := List.getElem_mem hj
    have hxR := hperm.mem_iff.mp hxL
    obtain ⟨row, hrowmem, hroweq⟩ := List.mem_filterMap.mp hxR
    match hp : row.parent with
    | none => rw [hp] at hroweq; simp at hroweq
    | some p =>
      rw [hp] at hroweq
      simp only [Option.some.injEq] at hroweq
      have hxname : ((db.get_branches_in_stack b)[j]).name = row.name := by
        rw [← hroweq]
      have hxparent : ((db.get_branches_in_stack b)[j]).parent = p := by
        rw [← hroweq]
      by_cases hproot : ∃ rrow ∈ db.branches, rrow.parent = none ∧ rrow.name = p
      · left
        rw [hxparent]
        exact hproot
      · right
        obtain ⟨dp, hdp, hdx, prow, hprowmem, hprowname⟩ :=
          depth_parent db.branches hnodup hearlier row hrowmem p hp
        match hq : prow.parent with
        | none => exact absurd ⟨prow, hprowmem, hq, hprowname⟩ hproot
        | some q =>
          have hpR : ({ name := p, parent := q } : Branch) ∈ nonRootBranches db.branches := by
            rw [nonRootBranches, List.mem_filterMap]
            refine ⟨prow, hprowmem, ?_⟩
            rw [hq, hprowname]
          have hpL := hperm.mem_iff.mpr hpR
          obtain ⟨i, hi, hieq⟩ := List.mem_iff_getElem.mp hpL
          have hlevp : stackLevel db.branches b p =
              (dp : Int) - (((branchDepth db.branches db.branches.length b).getD 0 : Nat) : Int) := by
            unfold stackLevel
            rw [hdp]
            rfl
          have hlevx : stackLevel db.branches b row.name =
              ((dp + 1 : Nat) : Int) -
                (((branchDepth db.branches db.branches.length b).getD 0 : Nat) : Int) := by
            unfold stackLevel
            rw [hdx]
            rfl
          have hij : i < j := by
            rcases Nat.lt_trichotomy i j with h | h | h
            · exact h
            · exfalso
              subst h
              have hnameeq : row.name = p := by
                rw [← hxname]
                exact congrArg Branch.name hieq
              exact hnp row hrowmem p hp hnameeq
            · exfalso
              have hpair := List.pairwise_iff_getElem.mp hsorted j i hj hi h
              rw [hieq, hxname] at hpair
              simp only at hpair
              rw [hlevp, hlevx] at hpair
              omega
          exact ⟨i, hij, hi, by rw [hieq, hxparent]⟩

/-- The intermediate stores on the way to `dbStack`. -/
def dbStack1 : Database :=
  { branches := [ { name := "main", parent := none } ], remote := some "origin" }

/-- `dbStack1` after tracking `a` on `main`. -/
def dbStack2 : Database :=
  { branches := [ { name := "main", parent := none }
                , { name := "a", parent := some "main" } ]
  , remote := some "origin" }

/-- `dbStack2` after tracking `b` on `a`. -/
def dbStack3 : Database :=
  { branches := [ { name := "main", parent := none }
                , { name := "a", parent := some "main" }
                , { name := "b", parent := some "a" } ]
  , remote := some "origin" }

/-- `dbStack` is reachable by the store's own operations. -/
theorem built_dbStack : Built dbStack :=
  Built.create dbStack3 "b" "c" dbStack
    (Built.create dbStack2 "a" "b" dbStack3
      (Built.create dbStack1 "main" "a" dbStack2
        (Built.init (some "origin") "main" dbStack1 (by decide))
        (by decide))
      (by decide))
    (by decide)

/-- Witness for C2's amended claim on the concrete stack: the query's
output for `b` is a permutation of all tracked non-root branches with their
parents. -/
theorem get_branches_in_stack_whole_tree_witness :
    (dbStack.get_branches_in_stack "b").Perm (nonRootBranches dbStack.branches) :=
  (get_branches_in_stack_whole_tree dbStack "b" built_dbStack
    { name := "b", parent := some "a" } (by decide) rfl (by decide)).1
